import Mathlib

/-!
Shallow embedding of `oslo/pytorch/kernel_fusion/utils/aot_autograd.py`.

Python values that flow through the engine are modelled by `Val`: a tensor
carries a `requires_grad` flag and an opaque payload; every other argument
(ints, strings, shapes, ...) is a `nonTensor` with an opaque payload.
Fallible Python code (assertions, iterator exhaustion) is modelled with
`Option`.  External collaborators (torch.autograd.grad, make_fx, the
partitioner, the pluggable compilers) are opaque parameters.
-/

/-- A Python runtime value as seen by the AOT engine: a tensor with its
`requires_grad` flag and an identifying payload, or a non-tensor value. -/
inductive Val where
  | tensor (requires_grad : Bool) (data : Nat)
  | nonTensor (data : Nat)
  deriving DecidableEq, Repr

/-- Embeds `isinstance(p, Tensor) and p.requires_grad` (aot_autograd.py line 57). -/
def Val.is_grad_tensor : Val → Bool
  | .tensor rg _ => rg
  | .nonTensor _ => false

/-! ## Static/Dynamic argument splitter (aot_autograd.py lines 192-234) -/

/-- Embeds `filter_tensor_and_static_args(args, static_argnums)` (lines 192-206):
walks `args` with their positional index; indices in `static_argnums` go to
the static sequence (together with their hash), all others to the tensor
sequence.  The hash of a value is modelled by an opaque function `hashv`. -/
def filterArgsLoop (hashv : Val → Nat) (static_argnums : List Nat) :
    Nat → List Val → List Val × List Val × List Nat
  | _, [] => ([], [], [])
  | idx, a :: rest =>
    let (t, s, h) := filterArgsLoop hashv static_argnums (idx + 1) rest
    if idx ∈ static_argnums then (t, a :: s, hashv a :: h)
    else (a :: t, s, h)

/-- Entry point of the splitter: start the enumeration at index 0. -/
def filter_tensor_and_static_args (hashv : Val → Nat) (args : List Val)
    (static_argnums : List Nat) : List Val × List Val × List Nat :=
  filterArgsLoop hashv static_argnums 0 args

/-- The merge loop of `rearrange` (lines 213-232).  The Python code keeps
three counters; `index` is initialised to 0 and — exactly as in the source —
is never incremented inside the loop, so the comparison
`index == static_argnums[static_index]` is always made against the same
`index`.  The static arguments are zipped with their index positions
(`static_index` advances through both in lockstep).  After the main loop the
remaining tensor arguments and then the remaining static arguments are
appended. -/
def rearrangeMerge (index : Nat) : List Val → List (Val × Nat) → List Val
  | ts, [] => ts
  | [], sns => sns.map Prod.fst
  | t :: ts, (s, n) :: sns =>
    if index = n then s :: rearrangeMerge index (t :: ts) sns
    else t :: rearrangeMerge index ts ((s, n) :: sns)
  termination_by ts sns => ts.length + sns.length

/-- Embeds `rearrange(tensor_args, static_args, static_argnums)` (lines 209-234):
asserts `len(static_args) == len(static_argnums)` (`none` on failure), then
runs the merge loop starting from `index = 0`. -/
def rearrange (tensor_args static_args : List Val) (static_argnums : List Nat) :
    Option (List Val) :=
  if static_args.length = static_argnums.length then
    some (rearrangeMerge 0 tensor_args (static_args.zip static_argnums))
  else none

/-! ## Joint forward/backward builder (aot_autograd.py lines 47-84) -/

/-- The trailing list comprehension of `joint_forward_backward` (lines 79-82):
`backward_out_iter = iter(backward_out);`
`[next(backward_out_iter) if i else None for i in inputs_needs_grads]`.
Consumes one element of `bwd` per `true` flag; `none` models the
`StopIteration` error raised when the iterator is exhausted. -/
def consumeGrads : List Bool → List (Option Val) → Option (List (Option Val))
  | [], _ => some []
  | false :: fs, bs => (consumeGrads fs bs).map (fun gs => none :: gs)
  | true :: _, [] => none
  | true :: fs, b :: bs => (consumeGrads fs bs).map (fun gs => b :: gs)

/-- Embeds `create_joint_forward_backward(fn)`'s inner `joint_forward_backward`
(lines 48-82).  `fn` is the flattened target function and `agrad` models the
external `torch.autograd.grad(needed_outs, grad_primals, needed_tangents,
allow_unused=True)` primitive, whose entries are `Option Val` because
`allow_unused=True` lets it return `None` for unused inputs.  The result is
`none` when the `assert len(tangents) == len(outs)` fails or the iterator in
the final comprehension is exhausted. -/
def joint_forward_backward (fn : List Val → List Val)
    (agrad : List Val → List Val → List Val → List (Option Val))
    (primals tangents : List Val) : Option (List Val × List (Option Val)) :=
  let outs := fn primals
  let inputs_needs_grads := primals.map Val.is_grad_tensor
  let grad_primals := primals.filter Val.is_grad_tensor
  if tangents.length = outs.length then
    let needed := (outs.zip tangents).filter (fun p => p.1.is_grad_tensor)
    let needed_outs := needed.map Prod.fst
    let needed_tangents := needed.map Prod.snd
    let backward_out :=
      if grad_primals.isEmpty then [] else agrad needed_outs grad_primals needed_tangents
    (consumeGrads inputs_needs_grads backward_out).map (fun gs => (outs, gs))
  else none

/-! ## Decomposition table (aot_autograd.py lines 95-100 and 129) -/

/-- A Python `dict`, modelled insertion-style: a list of key/value pairs in
insertion order with no duplicate keys, built only through `dictInsert`. -/
def PyDict (K V : Type) := List (K × V)

/-- Assignment `d[k] = v`: replace the value of an existing key in place, otherwise
append the new pair at the end (Python dict assignment). -/
def dictInsert {K V : Type} [DecidableEq K] : PyDict K V → K → V → PyDict K V
  | [], k, v => [(k, v)]
  | (k', v') :: rest, k, v =>
    if k' = k then (k', v) :: rest else (k', v') :: dictInsert rest k v

/-- Subscript `d[k]` lookup (first — and, with unique keys, only — match). -/
def dictLookup {K V : Type} [DecidableEq K] : PyDict K V → K → Option V
  | [], _ => none
  | (k', v') :: rest, k => if k' = k then some v' else dictLookup rest k

/-- Merge `{**a, **b}`: start from `a`'s entries and assign each entry of `b` in
order, so `b`'s values win on key collision (line 129:
`aot_decompositions = {**aot_autograd_decompositions, **decompositions}`). -/
def dictMerge {K V : Type} [DecidableEq K] (a b : PyDict K V) : PyDict K V :=
  b.foldl (fun d p => dictInsert d p.1 p.2) a

/-- Embeds `aten.sub(a, b)` as used by the rsub decomposition (elementwise values
modelled as integers). -/
def aten_sub (a b : Int) : Int := a - b

/-- Python unary minus on a tensor, elementwise. -/
def aten_neg (a : Int) : Int := -a

/-- The built-in decomposition `rsub(a, b, alpha=1) = -aten.sub(a, b)`
(lines 98-100); `alpha` is accepted and ignored as in the source. -/
def rsub (a b : Int) (alpha : Int) : Int := aten_neg (aten_sub a b)

/-- An operator key for the decomposition table (`aten.rsub`, ...). -/
def rsubKey : Nat := 0

/-- Modelled from the spec: `register_decomposition`
(utils/decompositions.py, not under src/) registers the decorated function
in the table passed to it, so `aot_autograd_decompositions` (line 95, the
"small built-in table of symbolic rewrite rules" of §4.3) holds `rsub`
under the `aten.rsub` key after the decorator on line 98 runs. -/
def aot_autograd_decompositions : PyDict Nat (Int → Int → Int → Int) :=
  dictInsert [] rsubKey rsub

/-- Merge `{**aot_autograd_decompositions, **decompositions}` (line 129): the
decomposition table handed to `make_fx` during tracing. -/
def aot_decompositions (decompositions : PyDict Nat (Int → Int → Int → Int)) :
    PyDict Nat (Int → Int → Int → Int) :=
  dictMerge aot_autograd_decompositions decompositions

/-! ## normalize_as_list and the compiled autograd function
(aot_autograd.py lines 87-155) -/

/-- The result of calling a Python function/executable, as far as
`normalize_as_list` and `num_outs` care: a tuple, a list, or a single
value. -/
inductive PyOut where
  | tup (vs : List Val)
  | lst (vs : List Val)
  | single (v : Val)
  deriving Repr

/-- Embeds `normalize_as_list(x)` (lines 87-92). -/
def normalize_as_list : PyOut → List Val
  | .tup vs => vs
  | .lst vs => vs
  | .single v => [v]

/-- Embeds `if isinstance(out, (list, tuple)): num_outs = len(out) else: 1`
(lines 123-126). -/
def pyOutNumOuts : PyOut → Nat
  | .tup vs => vs.length
  | .lst vs => vs.length
  | .single _ => 1

/-- Embeds `pytree.tree_map(lambda x: x.detach() if isinstance(x, Tensor) else x,
out)` (lines 119-121), with the external `.detach()` an opaque map on
values. -/
def detachOut (detach : Val → Val) : PyOut → PyOut
  | .tup vs => .tup (vs.map detach)
  | .lst vs => .lst (vs.map detach)
  | .single v => .single (detach v)

/-- A compiled executable (`compile(Graph, sample_args) -> Executable`):
takes the flat argument list and returns a Python result. -/
def Exe : Type := List Val → PyOut

/-- The nonlocal closure state of `create_aot_autograd_function`
(lines 108-110): `compiled_fw`, `compiled_bw` and `num_outs` are `None`
before the first forward call and are all populated together under the
single `if compiled_fw is None` guard. -/
def AotState : Type := Option (Exe × Exe × Nat)

/-- Embeds `CompiledFunction.forward` (lines 112-145) over an opaque graph type
`G`.  External collaborators are parameters: `flat_fn` (the function being
compiled), `detach`, `makeFx` (tracing of `joint_forward_backward` under the
merged decomposition table, line 131), `partition_fn`, and the two
compilers.  Returns the new closure state, the saved tensors
(`ctx.save_for_backward(*fw_outs[num_outs:])`, line 144) and the returned
user outputs (`tuple(fw_outs[0:num_outs])`, line 145). -/
def CompiledFunction.forward {G : Type}
    (flat_fn : List Val → PyOut) (detach : Val → Val)
    (makeFx : PyDict Nat (Int → Int → Int → Int) → List Val × PyOut → G)
    (partition_fn : G → List Val × PyOut → G × G)
    (fw_compiler bw_compiler : G → List Val → Exe)
    (decompositions : PyDict Nat (Int → Int → Int → Int))
    (st : AotState) (flat_tensor_args : List Val) :
    AotState × List Val × List Val :=
  match st with
  | none =>
    let out := detachOut detach (flat_fn flat_tensor_args)
    let num_outs := pyOutNumOuts out
    let joint_inputs := (flat_tensor_args, out)
    let fx_g := makeFx (aot_decompositions decompositions) joint_inputs
    let (fw_module, bw_module) := partition_fn fx_g joint_inputs
    let compiled_fw := fw_compiler fw_module flat_tensor_args
    let fw_outs := normalize_as_list (compiled_fw flat_tensor_args)
    let bw_args := fw_outs.drop num_outs ++ fw_outs.take num_outs
    let compiled_bw := bw_compiler bw_module bw_args
    (some (compiled_fw, compiled_bw, num_outs),
      fw_outs.drop num_outs, fw_outs.take num_outs)
  | some (compiled_fw, compiled_bw, num_outs) =>
    let fw_outs := normalize_as_list (compiled_fw flat_tensor_args)
    (some (compiled_fw, compiled_bw, num_outs),
      fw_outs.drop num_outs, fw_outs.take num_outs)

/-- Embeds `CompiledFunction.backward` (lines 147-153): `ctx.saved_tensors` holds
what forward saved; `contiguous_args = [t for t in flat_args]` is the
identity copy in the source as written; the compiled backward executable is
called on `(*ctx.saved_tensors, *contiguous_args)` and the normalized result
is returned unchanged. -/
def CompiledFunction.backward (compiled_bw : Exe)
    (saved_tensors flat_args : List Val) : List Val :=
  let contiguous_args := flat_args.map (fun t => t)
  normalize_as_list (compiled_bw (saved_tensors ++ contiguous_args))

/-! ## Pytree specs and PytreeThunk (aot_autograd.py lines 166-189) -/

/-- Container kinds the codec distinguishes. -/
inductive ContainerKind where
  | listK | tupleK | dictK
  deriving DecidableEq, Repr

/-- Mirror of `torch.utils._pytree.TreeSpec`: a leaf marker (`LeafSpec`) or a container
node with ordered child specs. -/
inductive TreeSpec where
  | leaf : TreeSpec
  | node (kind : ContainerKind) (children : List TreeSpec) : TreeSpec

/-- A nested Python structure over leaf values, as rebuilt by the codec. -/
inductive PyTree where
  | leafV (v : Val)
  | containerV (kind : ContainerKind) (children : List PyTree)

mutual

/-- Boolean structural equality of specs (spec equality is decidable). -/
def TreeSpec.beq : TreeSpec → TreeSpec → Bool
  | .leaf, .leaf => true
  | .node k cs, .node k2 cs2 => decide (k = k2) && TreeSpec.beqList cs cs2
  | _, _ => false

/-- Boolean structural equality of spec lists. -/
def TreeSpec.beqList : List TreeSpec → List TreeSpec → Bool
  | [], [] => true
  | c :: cs, c2 :: cs2 => TreeSpec.beq c c2 && TreeSpec.beqList cs cs2
  | _, _ => false

end

mutual

theorem TreeSpec.eq_of_beq : ∀ a b : TreeSpec, TreeSpec.beq a b = true → a = b
  | .leaf, .leaf, _ => rfl
  | .node k cs, .node k2 cs2, h => by
    simp only [TreeSpec.beq, Bool.and_eq_true, decide_eq_true_eq] at h
    cases h.1
    exact congrArg (TreeSpec.node k) (TreeSpec.eqList_of_beqList cs cs2 h.2)

theorem TreeSpec.eqList_of_beqList :
    ∀ a b : List TreeSpec, TreeSpec.beqList a b = true → a = b
  | [], [], _ => rfl
  | c :: cs, c2 :: cs2, h => by
    simp only [TreeSpec.beqList, Bool.and_eq_true] at h
    cases TreeSpec.eq_of_beq c c2 h.1
    cases TreeSpec.eqList_of_beqList cs cs2 h.2
    rfl

end

mutual

theorem TreeSpec.beq_refl : ∀ a : TreeSpec, TreeSpec.beq a a = true
  | .leaf => rfl
  | .node k cs => by
    simp only [TreeSpec.beq, Bool.and_eq_true, decide_eq_true_eq]
    exact ⟨trivial, TreeSpec.beqList_refl cs⟩

theorem TreeSpec.beqList_refl : ∀ a : List TreeSpec, TreeSpec.beqList a a = true
  | [] => rfl
  | c :: cs => by
    simp only [TreeSpec.beqList, Bool.and_eq_true]
    exact ⟨TreeSpec.beq_refl c, TreeSpec.beqList_refl cs⟩

end

instance : DecidableEq TreeSpec := fun a b =>
  decidable_of_iff (TreeSpec.beq a b = true)
    ⟨TreeSpec.eq_of_beq a b, fun h => h ▸ TreeSpec.beq_refl a⟩

mutual

/-- Counts `spec.num_leaves`: how many leaves a spec describes. -/
def TreeSpec.num_leaves : TreeSpec → Nat
  | .leaf => 1
  | .node _ cs => TreeSpec.numLeavesList cs

/-- Sum of `num_leaves` over a list of child specs. -/
def TreeSpec.numLeavesList : List TreeSpec → Nat
  | [] => 0
  | c :: cs => c.num_leaves + TreeSpec.numLeavesList cs

end

mutual

/-- Modelled from the spec: the external codec's unflattening
(`torch.utils._pytree.tree_unflatten` is outside this repository).  §4.1:
`unflatten(leaves, spec) -> x'` rebuilds the structure the spec describes,
consuming leaves left to right; returns the tree and the unconsumed
leaves, `none` when the leaves run out. -/
def unflattenAux : TreeSpec → List Val → Option (PyTree × List Val)
  | .leaf, [] => none
  | .leaf, v :: vs => some (.leafV v, vs)
  | .node k cs, vs =>
    (unflattenList cs vs).map (fun r => (.containerV k r.1, r.2))

/-- Rebuild each child spec in order, threading the remaining leaves. -/
def unflattenList : List TreeSpec → List Val → Option (List PyTree × List Val)
  | [], vs => some ([], vs)
  | c :: cs, vs =>
    (unflattenAux c vs).bind (fun r =>
      (unflattenList cs r.2).map (fun r2 => (r.1 :: r2.1, r2.2)))

end

/-- Modelled from the spec: `tree_unflatten(values, spec)` of the external
codec — rejects a leaf sequence whose length differs from the spec's leaf
count, otherwise rebuilds the structure. -/
def tree_unflatten (values : List Val) (spec : TreeSpec) : Option PyTree :=
  if values.length = spec.num_leaves then (unflattenAux spec values).map Prod.fst
  else none

/-- The Python classes/types relevant to `type(self.spec) in [tuple, list]`
(line 177): a spec object is an instance of `TreeSpec` or of its subclass
`LeafSpec`, never of `tuple` or `list`. -/
inductive PyType where
  | treeSpecT | leafSpecT | tupleT | listT
  deriving DecidableEq, Repr

/-- Computes `type(spec)` for a spec object. -/
def TreeSpec.pyType : TreeSpec → PyType
  | .leaf => .leafSpecT
  | .node _ _ => .treeSpecT

/-- Embeds `isinstance(spec, pytree.LeafSpec)`. -/
def TreeSpec.isLeafSpec : TreeSpec → Bool
  | .leaf => true
  | .node _ _ => false

/-- Accessor `spec.children_specs` (a `LeafSpec` has no children). -/
def TreeSpec.children_specs : TreeSpec → List TreeSpec
  | .leaf => []
  | .node _ cs => cs

/-- Embeds `PytreeThunk` instance state (lines 166-172): the recorded output spec
and the two fast-path flags, all `None` initially. -/
structure PytreeThunk where
  spec : Option TreeSpec
  is_simple : Option Bool
  is_really_simple : Option Bool
  deriving DecidableEq

/-- A fresh `PytreeThunk()` (class attributes all `None`). -/
def PytreeThunk.init : PytreeThunk := ⟨none, none, none⟩

/-- Embeds `PytreeThunk.set(spec)` (lines 174-182): asserts the spec is unset or
equal to the recorded one (`none` on assertion failure), records it, then
sets `is_simple` when `type(self.spec) in [tuple, list]` and all children
are leaf specs, and `is_really_simple` when the spec is a `LeafSpec`. -/
def PytreeThunk.set (t : PytreeThunk) (spec : TreeSpec) : Option PytreeThunk :=
  if t.spec = none ∨ t.spec = some spec then
    let t1 : PytreeThunk := { t with spec := some spec }
    let t2 : PytreeThunk :=
      if (spec.pyType = PyType.tupleT ∨ spec.pyType = PyType.listT)
          ∧ spec.children_specs.all TreeSpec.isLeafSpec
      then { t1 with is_simple := some true } else t1
    let t3 : PytreeThunk :=
      if spec.isLeafSpec then { t2 with is_really_simple := some true } else t2
    some t3
  else none

/-- Embeds `PytreeThunk.unflatten(x)` (lines 184-189).  `x` is the flat sequence of
leaves handed back by the compiled function (a tuple at the call site, line
145/341-342): the really-simple path returns `x[0]` (`none` models the
`IndexError` on an empty sequence), the simple path returns the sequence
unchanged, and the general path calls the codec's `tree_unflatten` on the
recorded spec (`none` when no spec was ever recorded). -/
def PytreeThunk.unflatten (t : PytreeThunk) (x : List Val) : Option PyTree :=
  if t.is_really_simple = some true then (x.get? 0).map PyTree.leafV
  else if t.is_simple = some true then
    some (PyTree.containerV ContainerKind.tupleK (x.map PyTree.leafV))
  else t.spec.bind (fun s => tree_unflatten x s)

/-! ## Helper lemmas -/

theorem dictLookup_dictInsert {K V : Type} [DecidableEq K]
    (d : PyDict K V) (k k' : K) (v : V) :
    dictLookup (dictInsert d k v) k' =
      if k' = k then some v else dictLookup d k' := by
  induction d with
  | nil =>
    simp only [dictInsert, dictLookup]
    by_cases h : k = k'
    · rw [if_pos h, if_pos h.symm]
    · rw [if_neg h, if_neg (fun hh : k' = k => h hh.symm)]
  | cons p rest ih =>
    obtain ⟨a, b⟩ := p
    simp only [dictInsert]
    by_cases hak : a = k
    · rw [if_pos hak]
      simp only [dictLookup]
      by_cases h : a = k'
      · rw [if_pos h, if_pos (h.symm.trans hak)]
      · rw [if_neg h, if_neg (fun hh : k' = k => h (hak.trans hh.symm)), if_neg h]
    · rw [if_neg hak]
      simp only [dictLookup, ih]
      by_cases h : a = k'
      · rw [if_pos h, if_neg (fun hh : k' = k => hak (h.trans hh)), if_pos h]
      · rw [if_neg h]
        by_cases hk : k' = k
        · rw [if_pos hk, if_pos hk]
        · rw [if_neg hk, if_neg hk, if_neg h]

theorem dictLookup_foldl_of_not_mem {K V : Type} [DecidableEq K]
    (b : PyDict K V) (a : PyDict K V) (k : K)
    (hk : k ∉ b.map Prod.fst) :
    dictLookup (b.foldl (fun d p => dictInsert d p.1 p.2) a) k = dictLookup a k := by
  induction b generalizing a with
  | nil => rfl
  | cons p rest ih =>
    simp only [List.map_cons, List.mem_cons] at hk
    push_neg at hk
    simp only [List.foldl_cons]
    rw [ih _ hk.2, dictLookup_dictInsert, if_neg hk.1]

theorem dictLookup_dictMerge {K V : Type} [DecidableEq K]
    (a b : PyDict K V) (k : K) (hnodup : (b.map Prod.fst).Nodup) :
    dictLookup (dictMerge a b) k =
      match dictLookup b k with
      | some v => some v
      | none => dictLookup a k := by
  induction b generalizing a with
  | nil => rfl
  | cons p rest ih =>
    obtain ⟨k1, v1⟩ := p
    simp only [List.map_cons, List.nodup_cons] at hnodup
    simp only [dictMerge, List.foldl_cons] at *
    by_cases hk : k1 = k
    · subst hk
      rw [dictLookup_foldl_of_not_mem _ _ _ hnodup.1,
        dictLookup_dictInsert, if_pos rfl]
      simp [dictLookup]
    · rw [ih _ hnodup.2, dictLookup_dictInsert, if_neg (fun h => hk h.symm)]
      simp only [dictLookup, if_neg hk]

theorem TreeSpec.pyType_not_container (s : TreeSpec) :
    ¬(s.pyType = PyType.tupleT ∨ s.pyType = PyType.listT) := by
  cases s <;> simp [TreeSpec.pyType]

/-- Computed form of `PytreeThunk.set`: the `type(self.spec) in [tuple, list]` test
compares a spec object's class against `tuple`/`list` and so never holds —
`is_simple` is never switched on. -/
theorem PytreeThunk.set_eq (t : PytreeThunk) (s : TreeSpec) :
    PytreeThunk.set t s =
      if t.spec = none ∨ t.spec = some s then
        some (if s.isLeafSpec
          then { t with spec := some s, is_really_simple := some true }
          else { t with spec := some s })
      else none := by
  have hA := TreeSpec.pyType_not_container s
  by_cases hc : t.spec = none ∨ t.spec = some s
  · by_cases hl : s.isLeafSpec = true
    · simp [PytreeThunk.set, hc, hA, hl]
    · simp [PytreeThunk.set, hc, hA, hl]
  · simp [PytreeThunk.set, hc]

theorem filter_length_eq_count (l : List Val) :
    (l.filter Val.is_grad_tensor).length =
      (l.map Val.is_grad_tensor).count true := by
  induction l with
  | nil => rfl
  | cons a l ih =>
    cases h : a.is_grad_tensor <;>
      simp [List.filter_cons, List.count_cons, h, ih]

theorem count_take_map (l : List Val) (i : Nat) :
    ((l.map Val.is_grad_tensor).take i).count true =
      ((l.take i).filter Val.is_grad_tensor).length := by
  rw [← List.map_take]
  exact (filter_length_eq_count _).symm

/-- Lemma: `consumeGrads` succeeds when the gradient list is long enough, returns
one entry per flag, and draws the `k`-th gradient for the position carrying
the `k`-th `true` flag. -/
theorem consumeGrads_spec : ∀ (flags : List Bool) (bs : List (Option Val)),
    flags.count true ≤ bs.length →
    ∃ gs, consumeGrads flags bs = some gs ∧ gs.length = flags.length ∧
      ∀ i, i < flags.length →
        gs.get? i = if flags.getD i false then
            bs.get? ((flags.take i).count true)
          else some none := by
  intro flags
  induction flags with
  | nil =>
    exact fun bs _ => ⟨[], rfl, rfl, fun i hi => absurd hi (Nat.not_lt_zero i)⟩
  | cons f fs ih =>
    intro bs hle
    cases f with
    | false =>
      have hle' : fs.count true ≤ bs.length := by
        simpa [List.count_cons] using hle
      obtain ⟨gs, hgs, hlen, hidx⟩ := ih bs hle'
      refine ⟨none :: gs, by simp [consumeGrads, hgs], by simp [hlen], ?_⟩
      intro i hi
      cases i with
      | zero => simp
      | succ j =>
        have hj : j < fs.length := by simpa using hi
        simpa [List.count_cons] using hidx j hj
    | true =>
      cases bs with
      | nil => simp [List.count_cons] at hle
      | cons b bs' =>
        have hle' : fs.count true ≤ bs'.length := by
          simpa [List.count_cons] using hle
        obtain ⟨gs, hgs, hlen, hidx⟩ := ih bs' hle'
        refine ⟨b :: gs, by simp [consumeGrads, hgs], by simp [hlen], ?_⟩
        intro i hi
        cases i with
        | zero => simp
        | succ j =>
          have hj : j < fs.length := by simpa using hi
          simpa [List.count_cons, Nat.add_comm] using hidx j hj

/-- With only `false` flags, the comprehension consumes nothing and yields
the sentinel at every position, whatever `bs` is. -/
theorem consumeGrads_all_false : ∀ (flags : List Bool) (bs : List (Option Val)),
    (∀ f ∈ flags, f = false) →
    consumeGrads flags bs = some (flags.map (fun _ => none)) := by
  intro flags
  induction flags with
  | nil => intro bs _; rfl
  | cons f fs ih =>
    intro bs h
    have hf : f = false := h f (List.mem_cons_self f fs)
    subst hf
    simp [consumeGrads, ih bs (fun g hg => h g (List.mem_cons_of_mem _ hg))]

/-- The property C2 asserts of the joint function: it returns the forward
outputs unchanged, one input-gradient slot per primal, and slot `i` is
filled from position `k` of the single batched call to the external
autodiff primitive — `k` counting the gradient-requiring primals before
`i` — exactly when primal `i` is a gradient-requiring tensor, the `None`
sentinel otherwise. -/
def JointGradientContract (fn : List Val → List Val)
    (agrad : List Val → List Val → List Val → List (Option Val))
    (primals tangents : List Val) : Prop :=
  ∃ gs, joint_forward_backward fn agrad primals tangents =
      some (fn primals, gs) ∧
    gs.length = primals.length ∧
    ∀ i, i < primals.length →
      gs.get? i =
        if (primals.map Val.is_grad_tensor).getD i false then
          (if (primals.filter Val.is_grad_tensor).isEmpty then []
           else agrad
            ((((fn primals).zip tangents).filter
                (fun p => p.1.is_grad_tensor)).map Prod.fst)
            (primals.filter Val.is_grad_tensor)
            ((((fn primals).zip tangents).filter
                (fun p => p.1.is_grad_tensor)).map Prod.snd)).get?
            ((primals.take i).filter Val.is_grad_tensor).length
        else some none

theorem joint_contract_aux (fn : List Val → List Val)
    (agrad : List Val → List Val → List Val → List (Option Val))
    (hagrad : ∀ o i g, (agrad o i g).length = i.length)
    (primals tangents : List Val)
    (hlen : tangents.length = (fn primals).length) :
    JointGradientContract fn agrad primals tangents := by
  have hflags : (primals.filter Val.is_grad_tensor).length =
      (primals.map Val.is_grad_tensor).count true :=
    filter_length_eq_count primals
  have hbwd : (primals.map Val.is_grad_tensor).count true ≤
      (if (primals.filter Val.is_grad_tensor).isEmpty then []
       else agrad
        ((((fn primals).zip tangents).filter
            (fun p => p.1.is_grad_tensor)).map Prod.fst)
        (primals.filter Val.is_grad_tensor)
        ((((fn primals).zip tangents).filter
            (fun p => p.1.is_grad_tensor)).map Prod.snd)).length := by
    rw [← hflags]
    by_cases he : (primals.filter Val.is_grad_tensor).isEmpty = true
    · rw [if_pos he]
      rw [List.isEmpty_iff] at he
      simp [he]
    · rw [if_neg he, hagrad]
  obtain ⟨gs, hgs, hglen, hidx⟩ :=
    consumeGrads_spec (primals.map Val.is_grad_tensor)
      (if (primals.filter Val.is_grad_tensor).isEmpty then []
       else agrad
        ((((fn primals).zip tangents).filter
            (fun p => p.1.is_grad_tensor)).map Prod.fst)
        (primals.filter Val.is_grad_tensor)
        ((((fn primals).zip tangents).filter
            (fun p => p.1.is_grad_tensor)).map Prod.snd)) hbwd
  refine ⟨gs, ?_, by simpa using hglen, ?_⟩
  · simp only [joint_forward_backward]
    rw [if_pos hlen, hgs]
    rfl
  · intro i hi
    rw [hidx i (by simpa using hi), count_take_map]

/-! ## Claim theorems -/

/-- C10: for all inputs `a`, `b` and every value of the optional `alpha`
parameter, the built-in `rsub` decomposition returns `-(a - b)`, and the
`alpha` parameter has no effect on the result. -/
theorem rsub_decomposition_spec (a b alpha alpha2 : Int) :
    rsub a b alpha = -(a - b) ∧ rsub a b alpha = rsub a b alpha2 :=
  ⟨rfl, rfl⟩

/-- C1 (failing-input evaluation): splitting `[tensor 10, static 20,
tensor 30]` at static index 1 and merging back with `rearrange` yields
`[tensor 10, tensor 30, static 20]`, not the original order — the merge
loop never advances its `index` counter, so a static index `> 0` can never
match and the split is not inverted. -/
theorem rearrange_not_inverse_at_failing_input :
    filter_tensor_and_static_args (fun _ => 0)
        [Val.tensor true 10, Val.nonTensor 20, Val.tensor true 30] [1] =
      ([Val.tensor true 10, Val.tensor true 30], [Val.nonTensor 20], [0]) ∧
    rearrange [Val.tensor true 10, Val.tensor true 30] [Val.nonTensor 20] [1] =
      some [Val.tensor true 10, Val.tensor true 30, Val.nonTensor 20] ∧
    [Val.tensor true 10, Val.tensor true 30, Val.nonTensor 20] ≠
      [Val.tensor true 10, Val.nonTensor 20, Val.tensor true 30] := by
  refine ⟨rfl, ?_, by decide⟩
  simp [rearrange, rearrangeMerge]

/-- C4: the decomposition table used during tracing
(`{**aot_autograd_decompositions, **decompositions}`, line 129) contains
every externally supplied entry, and for keys the external mapping does not
define it falls back to (hence contains) the built-in entries; on key
collision the external value wins. -/
theorem aot_decompositions_merge_spec
    (decompositions : PyDict Nat (Int → Int → Int → Int))
    (hnodup : (decompositions.map Prod.fst).Nodup) :
    (∀ k v, dictLookup decompositions k = some v →
      dictLookup (aot_decompositions decompositions) k = some v) ∧
    (∀ k, dictLookup decompositions k = none →
      dictLookup (aot_decompositions decompositions) k =
        dictLookup aot_autograd_decompositions k) := by
  constructor
  · intro k v hv
    rw [aot_decompositions, dictLookup_dictMerge _ _ _ hnodup, hv]
  · intro k hk
    rw [aot_decompositions, dictLookup_dictMerge _ _ _ hnodup, hk]

/-- Witness for C4 at a concrete external table that overrides the
built-in `rsub` entry and adds a fresh entry. -/
theorem aot_decompositions_merge_spec_witness :
    dictLookup (aot_decompositions [(rsubKey, fun a _ _ => a), (7, fun _ b _ => b)])
        rsubKey = some (fun a _ _ => a) ∧
    dictLookup (aot_decompositions [(7, fun _ b _ => b)]) rsubKey = some rsub := by
  constructor
  · exact (aot_decompositions_merge_spec
      [(rsubKey, fun a _ _ => a), (7, fun _ b _ => b)] (by simp [rsubKey])).1
      rsubKey (fun a _ _ => a) rfl
  · exact ((aot_decompositions_merge_spec [(7, fun _ b _ => b)] (by simp)).2
      rsubKey rfl).trans rfl

/-- C2: the joint function returns `(outputs, input_gradients)` where slot
`i` of the input gradients is drawn — positionally — from the single batched
invocation of the external autodiff primitive over only the
gradient-requiring outputs zipped with their tangents, exactly when primal
`i` is a tensor requiring gradient, and is the `None` sentinel otherwise;
the primitive may itself report `None` for unused inputs and that value is
passed through rather than raising. -/
theorem joint_forward_backward_gradient_spec (fn : List Val → List Val)
    (agrad : List Val → List Val → List Val → List (Option Val))
    (hagrad : ∀ o i g, (agrad o i g).length = i.length)
    (primals tangents : List Val)
    (hlen : tangents.length = (fn primals).length) :
    JointGradientContract fn agrad primals tangents :=
  joint_contract_aux fn agrad hagrad primals tangents hlen

/-- Witness for C2 on one non-tensor primal and an empty output list. -/
theorem joint_forward_backward_gradient_spec_witness :
    JointGradientContract (fun _ => []) (fun _ i _ => i.map (fun _ => none))
      [Val.nonTensor 5] [] :=
  joint_forward_backward_gradient_spec _ _ (fun _ i _ => by simp) _ _ rfl

/-- C3: `len(tangents) == len(outputs)` is a precondition of the joint
function — when it fails the assertion fires (for every autodiff primitive,
i.e. before any gradient computation), and under the precondition (and the
primitive's one-gradient-per-input contract) the failure branch is
unreachable. -/
theorem joint_forward_backward_count_contract (fn : List Val → List Val)
    (agrad : List Val → List Val → List Val → List (Option Val))
    (primals tangents : List Val) :
    (tangents.length ≠ (fn primals).length →
      joint_forward_backward fn agrad primals tangents = none) ∧
    ((∀ o i g, (agrad o i g).length = i.length) →
      tangents.length = (fn primals).length →
      (joint_forward_backward fn agrad primals tangents).isSome = true) := by
  constructor
  · intro hne
    simp only [joint_forward_backward]
    rw [if_neg hne]
  · intro hagrad hlen
    obtain ⟨gs, hgs, -, -⟩ := joint_contract_aux fn agrad hagrad primals tangents hlen
    rw [hgs]
    rfl

/-- Witness for C3: one tangent against zero outputs trips the assertion;
matching counts succeed. -/
theorem joint_forward_backward_count_contract_witness :
    joint_forward_backward (fun _ => []) (fun _ i _ => i.map (fun _ => none))
      [] [Val.nonTensor 1] = none ∧
    (joint_forward_backward (fun _ => []) (fun _ i _ => i.map (fun _ => none))
      [] []).isSome = true :=
  ⟨(joint_forward_backward_count_contract _ _ [] [Val.nonTensor 1]).1 (by simp),
   (joint_forward_backward_count_contract _ _ [] []).2 (fun _ i _ => by simp) rfl⟩

/-- C9: when no primal is a gradient-requiring tensor, the joint function's
result does not depend on the autodiff primitive at all (it is never
invoked: `agrad` is universally quantified and absent from the result) and
every input-gradient slot is the `None` sentinel. -/
theorem joint_forward_backward_no_grad_inputs (fn : List Val → List Val)
    (agrad : List Val → List Val → List Val → List (Option Val))
    (primals tangents : List Val)
    (hnone : ∀ p ∈ primals, p.is_grad_tensor = false)
    (hlen : tangents.length = (fn primals).length) :
    joint_forward_backward fn agrad primals tangents =
      some (fn primals, primals.map (fun _ => none)) := by
  simp only [joint_forward_backward]
  rw [if_pos hlen]
  rw [consumeGrads_all_false _ _ ?hall]
  case hall =>
    intro f hf
    obtain ⟨p, hp, rfl⟩ := List.mem_map.mp hf
    exact hnone p hp
  simp [List.map_map, Function.comp_def, List.map_const']

/-- Witness for C9 on a single non-tensor primal. -/
theorem joint_forward_backward_no_grad_inputs_witness :
    joint_forward_backward (fun _ => []) (fun _ _ _ => [])
      [Val.nonTensor 5] [] = some ([], [none]) :=
  (joint_forward_backward_no_grad_inputs _ _ _ _ (by decide) rfl).trans rfl

/-- The property C5 asserts of a forward call: whatever the incoming
closure state, after the call the state holds a compiled forward
executable, a compiled backward executable and an output count `n`; on a
first call `n` is the length of the (detached) result of `flat_fn` on the
arguments, on a subsequent call the state is untouched; and the call
returns exactly the first `n` results of running the compiled forward
executable on the flat tensor arguments, retaining the rest as the saved
values for backward. -/
def ForwardCallContract {G : Type} (flat_fn : List Val → PyOut)
    (detach : Val → Val)
    (makeFx : PyDict Nat (Int → Int → Int → Int) → List Val × PyOut → G)
    (partition_fn : G → List Val × PyOut → G × G)
    (fw_compiler bw_compiler : G → List Val → Exe)
    (decompositions : PyDict Nat (Int → Int → Int → Int))
    (st : AotState) (args : List Val) : Prop :=
  ∃ cfw cbw n,
    (CompiledFunction.forward flat_fn detach makeFx partition_fn fw_compiler
        bw_compiler decompositions st args).1 = some (cfw, cbw, n) ∧
    (st = none → n = pyOutNumOuts (detachOut detach (flat_fn args))) ∧
    (st ≠ none →
      (CompiledFunction.forward flat_fn detach makeFx partition_fn fw_compiler
        bw_compiler decompositions st args).1 = st) ∧
    (CompiledFunction.forward flat_fn detach makeFx partition_fn fw_compiler
        bw_compiler decompositions st args).2.2 =
      (normalize_as_list (cfw args)).take n ∧
    (CompiledFunction.forward flat_fn detach makeFx partition_fn fw_compiler
        bw_compiler decompositions st args).2.1 =
      (normalize_as_list (cfw args)).drop n

/-- C5: every forward call — first or subsequent — executes the compiled
forward executable on the flat tensor arguments, returns exactly the first
`num_outs` results (the count recorded at first compilation) and retains
the remaining results as the saved values for the matching backward
call. -/
theorem compiledFunction_forward_spec {G : Type} (flat_fn : List Val → PyOut)
    (detach : Val → Val)
    (makeFx : PyDict Nat (Int → Int → Int → Int) → List Val × PyOut → G)
    (partition_fn : G → List Val × PyOut → G × G)
    (fw_compiler bw_compiler : G → List Val → Exe)
    (decompositions : PyDict Nat (Int → Int → Int → Int))
    (st : AotState) (args : List Val) :
    ForwardCallContract flat_fn detach makeFx partition_fn fw_compiler
      bw_compiler decompositions st args := by
  cases st with
  | none =>
    exact ⟨_, _, _, rfl, fun _ => rfl, fun h => absurd rfl h, rfl, rfl⟩
  | some p =>
    obtain ⟨cfw, cbw, n⟩ := p
    exact ⟨cfw, cbw, n, rfl, fun h => Option.noConfusion h, fun _ => rfl,
      rfl, rfl⟩

/-- Witness for C5 at a concrete instantiation (both a first and a
subsequent call). -/
theorem compiledFunction_forward_spec_witness :
    ForwardCallContract (G := Unit) (fun _ => PyOut.single (Val.nonTensor 0))
      (fun v => v) (fun _ _ => ()) (fun _ _ => ((), ()))
      (fun _ _ a => PyOut.lst a) (fun _ _ a => PyOut.lst a) []
      none [Val.nonTensor 7] ∧
    ForwardCallContract (G := Unit) (fun _ => PyOut.single (Val.nonTensor 0))
      (fun v => v) (fun _ _ => ()) (fun _ _ => ((), ()))
      (fun _ _ a => PyOut.lst a) (fun _ _ a => PyOut.lst a) []
      (some (fun a => PyOut.lst a, fun a => PyOut.lst a, 1))
      [Val.nonTensor 7] :=
  ⟨compiledFunction_forward_spec _ _ _ _ _ _ _ none _,
   compiledFunction_forward_spec _ _ _ _ _ _ _ _ _⟩

/-- C6: the backward call hands the compiled backward executable the saved
forward values followed by the incoming output-gradients, in that exact
positional order, and returns its (normalized) results unchanged. -/
theorem compiledFunction_backward_spec {G : Type} (flat_fn : List Val → PyOut)
    (detach : Val → Val)
    (makeFx : PyDict Nat (Int → Int → Int → Int) → List Val × PyOut → G)
    (partition_fn : G → List Val × PyOut → G × G)
    (fw_compiler bw_compiler : G → List Val → Exe)
    (decompositions : PyDict Nat (Int → Int → Int → Int))
    (st : AotState) (args grads : List Val) (cfw cbw : Exe) (n : Nat)
    (hst : (CompiledFunction.forward flat_fn detach makeFx partition_fn
        fw_compiler bw_compiler decompositions st args).1 = some (cfw, cbw, n)) :
    CompiledFunction.backward cbw
        (CompiledFunction.forward flat_fn detach makeFx partition_fn
          fw_compiler bw_compiler decompositions st args).2.1 grads =
      normalize_as_list (cbw ((normalize_as_list (cfw args)).drop n ++ grads)) := by
  cases st with
  | none =>
    simp only [CompiledFunction.forward] at hst ⊢
    injection hst with h
    injection h with h1 h'
    injection h' with h2 h3
    subst h1; subst h2; subst h3
    simp [CompiledFunction.backward]
  | some p =>
    obtain ⟨cfw0, cbw0, n0⟩ := p
    simp only [CompiledFunction.forward] at hst ⊢
    injection hst with h
    injection h with h1 h'
    injection h' with h2 h3
    subst h1; subst h2; subst h3
    simp [CompiledFunction.backward]

/-- Witness for C6 at a concrete compiled pair. -/
theorem compiledFunction_backward_spec_witness :
    CompiledFunction.backward (fun a => PyOut.lst a)
        ((CompiledFunction.forward (G := Unit)
            (fun _ => PyOut.single (Val.nonTensor 0))
            (fun v => v) (fun _ _ => ()) (fun _ _ => ((), ()))
            (fun _ _ a => PyOut.lst a) (fun _ _ a => PyOut.lst a) []
            (some (fun a => PyOut.lst a, fun a => PyOut.lst a, 1))
            [Val.nonTensor 7, Val.nonTensor 8]).2.1)
        [Val.nonTensor 9] =
      normalize_as_list ((fun a => PyOut.lst a)
        ((normalize_as_list ((fun a => PyOut.lst a)
            [Val.nonTensor 7, Val.nonTensor 8])).drop 1 ++ [Val.nonTensor 9])) :=
  compiledFunction_backward_spec _ _ _ _ _ _ _ _ _ _ _ _ _ rfl

/-- C7: the output tree spec is set at most once — the first
`PytreeThunk.set` records the spec, a later call with an equal spec leaves
the thunk unchanged, and a later call with a different spec fails the
assertion rather than overwriting. -/
theorem PytreeThunk.set_init (s : TreeSpec) :
    PytreeThunk.set PytreeThunk.init s =
      some (if s.isLeafSpec then PytreeThunk.mk (some s) none (some true)
        else PytreeThunk.mk (some s) none none) := by
  rw [PytreeThunk.set_eq]
  simp [PytreeThunk.init]

theorem pytreeThunk_set_at_most_once :
    (∀ s : TreeSpec, ∃ t', PytreeThunk.set PytreeThunk.init s = some t' ∧
      t'.spec = some s) ∧
    (∀ (t' : PytreeThunk) (s : TreeSpec),
      PytreeThunk.set PytreeThunk.init s = some t' →
      PytreeThunk.set t' s = some t') ∧
    (∀ (t : PytreeThunk) (s s' : TreeSpec), t.spec = some s → s' ≠ s →
      PytreeThunk.set t s' = none) := by
  refine ⟨fun s => ?_, fun t' s h => ?_, fun t s s' h hne => ?_⟩
  · rw [PytreeThunk.set_init]
    refine ⟨_, rfl, ?_⟩
    by_cases hl : s.isLeafSpec = true <;> simp [hl]
  · rw [PytreeThunk.set_init] at h
    injection h with h
    subst h
    by_cases hl : s.isLeafSpec = true <;>
      simp [PytreeThunk.set_eq, hl]
  · have hne' : ¬s = s' := fun hh => hne hh.symm
    simp [PytreeThunk.set_eq, h, hne']

/-- Witness for C7: re-setting an equal spec is the identity; setting a
different spec fails. -/
theorem pytreeThunk_set_at_most_once_witness :
    PytreeThunk.set (PytreeThunk.mk (some TreeSpec.leaf) none (some true))
        TreeSpec.leaf =
      some (PytreeThunk.mk (some TreeSpec.leaf) none (some true)) ∧
    PytreeThunk.set (PytreeThunk.mk (some TreeSpec.leaf) none (some true))
        (TreeSpec.node ContainerKind.listK []) = none := by
  have h1 : PytreeThunk.set PytreeThunk.init TreeSpec.leaf =
      some (PytreeThunk.mk (some TreeSpec.leaf) none (some true)) :=
    (PytreeThunk.set_init TreeSpec.leaf).trans rfl
  exact ⟨pytreeThunk_set_at_most_once.2.1 _ _ h1,
    pytreeThunk_set_at_most_once.2.2 _ TreeSpec.leaf _ rfl
      (fun h => TreeSpec.noConfusion h)⟩

/-- C8: on a thunk whose spec was recorded by `set`, `unflatten` of any
compatible leaf sequence agrees with the codec's general `tree_unflatten`;
in particular the fast paths are observationally equivalent to the general
path. -/
theorem pytreeThunk_unflatten_equiv (s : TreeSpec) (t' : PytreeThunk)
    (hset : PytreeThunk.set PytreeThunk.init s = some t')
    (leaves : List Val) (hlen : leaves.length = s.num_leaves) :
    PytreeThunk.unflatten t' leaves = tree_unflatten leaves s := by
  rw [PytreeThunk.set_init] at hset
  injection hset with hset
  cases s with
  | leaf =>
    simp only [TreeSpec.isLeafSpec, if_true] at hset
    subst hset
    have h1 : leaves.length = 1 := by
      rw [hlen]; simp [TreeSpec.num_leaves]
    obtain ⟨v, rfl⟩ := List.length_eq_one.mp h1
    simp [PytreeThunk.unflatten, tree_unflatten, TreeSpec.num_leaves,
      unflattenAux]
  | node k cs =>
    simp only [TreeSpec.isLeafSpec, Bool.false_eq_true, if_false] at hset
    subst hset
    simp [PytreeThunk.unflatten]

/-- Witness for C8 at the leaf spec and a singleton leaf sequence. -/
theorem pytreeThunk_unflatten_equiv_witness :
    PytreeThunk.unflatten
        (PytreeThunk.mk (some TreeSpec.leaf) none (some true)) [Val.nonTensor 3] =
      tree_unflatten [Val.nonTensor 3] TreeSpec.leaf :=
  pytreeThunk_unflatten_equiv TreeSpec.leaf _
    ((PytreeThunk.set_init TreeSpec.leaf).trans rfl)
    [Val.nonTensor 3] (by simp [TreeSpec.num_leaves])
